import Mathlib

/-!
Verification of the NW Corridor toll-rates OCR pipeline (src/app.py).

Shallow embedding conventions:
- Recognized text is a list of characters; the domain is the ASCII output
  of the OCR engine, so Python str.upper is the per-character ASCII
  uppercase map and the regex class \d is Char.isDigit.
- Every Python float that flows through the price loop is a non-negative
  decimal with at most two fractional digits, so values are represented
  exactly as a count of cents (a natural number).  In the reachable
  magnitudes (well below 2^53 cents) Python float comparison against the
  literal 15.0 and the shortest round-trip repr used on line 97 agree
  with exact decimal arithmetic, which is what pyStrCents implements.
- The regex search of line 83, the glyph cleanup of line 80, the
  magnitude corrector of lines 95-104 and the destination loop of lines
  87-115 are translated clause by clause from src/app.py.
- Images are pixel maps; the OCR engine is an external collaborator and
  is passed to process_image as an oracle function; process_image also
  reports the preprocessing stages and OCR invocations it performs, in
  the order the script performs them (lines 33-57).
-/

namespace NWCToll

/-- ASCII portion of the Python regex class \s (the only characters the
OCR engine can emit). -/
def isSpaceChar (c : Char) : Bool :=
  c = ' ' || c = '\t' || c = '\n' || c = '\r' || c = '\x0b' || c = '\x0c'

/-- Line 80: the four successive str.replace calls each replace a single
character, and later replacements never consume a character produced by an
earlier one, so the chain is one character map. -/
def cleanChar (c : Char) : Char :=
  if c = 'O' then '0'
  else if c = 'o' then '0'
  else if c = 'S' then '$'
  else if c = 's' then '$'
  else c

/-- clean_text of line 80. -/
def cleanText (cs : List Char) : List Char := cs.map cleanChar

/-- Value of a digit string, most significant digit first. -/
def digitsToNat (ds : List Char) : ℕ :=
  ds.foldl (fun a c => 10 * a + (c.toNat - 48)) 0

/-- Python float() on the simple non-negative decimal strings produced by
the price regex and by pyStrCents, returning the value in cents.  The
general float() accepts more forms (signs, exponents, infinities, a
fractional part longer than two digits); none of those ever reaches a
float() call in the script, and they are mapped to none here. -/
def pyFloatCents (s : List Char) : Option ℕ :=
  let ip := s.takeWhile Char.isDigit
  match s.dropWhile Char.isDigit with
  | [] => if ip = [] then none else some (digitsToNat ip * 100)
  | '.' :: fr =>
      if fr.all Char.isDigit ∧ (ip ≠ [] ∨ fr ≠ []) ∧ fr.length ≤ 2 then
        some (digitsToNat ip * 100 + digitsToNat fr * 10 ^ (2 - fr.length))
      else none
  | _ => none

/-- Decimal digits of a natural number, most significant first (fuel is
one more than the number itself, which is always enough). -/
def natToDigitsAux : ℕ → ℕ → List Char
  | 0, _ => []
  | f + 1, n =>
      if n < 10 then [Char.ofNat (48 + n)]
      else natToDigitsAux f (n / 10) ++ [Char.ofNat (48 + n % 10)]

def natToDigits (n : ℕ) : List Char := natToDigitsAux (n + 1) n

/-- Python str applied to the float val of the price loop (line 97).
For a non-negative two-decimal value below 10^15 cents, CPython prints
the shortest round-tripping decimal: the integer part, a dot, and the
fractional part with a trailing zero stripped (a bare 0 when the value
is integral). -/
def pyStrCents (cents : ℕ) : List Char :=
  let i := cents / 100
  let f := cents % 100
  natToDigits i ++ '.' ::
    (if f % 10 = 0 then [Char.ofNat (48 + f / 10)]
     else if f < 10 then ['0', Char.ofNat (48 + f)]
     else [Char.ofNat (48 + f / 10), Char.ofNat (48 + f % 10)])

/-- Lines 95-104: the magnitude correction heuristic.  If the value
exceeds 15.0, take str(val), and when it has at least 4 characters drop
its first character and re-parse; a failed re-parse keeps the original
value (the bare except of line 103). -/
def correctVal (cents : ℕ) : ℕ :=
  if 1500 < cents then
    let sv := pyStrCents cents
    if 4 ≤ sv.length then
      match pyFloatCents (sv.drop 1) with
      | some v => v
      | none => cents
    else cents
  else cents

/-- Leading optional dollar sign of the regex of line 83. -/
def dropDollar : List Char → List Char
  | '$' :: t => t
  | cs => cs

/-- The single optional whitespace of the regex of line 83. -/
def dropOneSpace : List Char → List Char
  | [] => []
  | c :: t => if isSpaceChar c then t else c :: t

/-- One anchored match attempt of the pattern of line 83,
optional dollar, optional single whitespace, then the capture group of
one or more digits, a dot, and exactly two digits.  Returns the captured
substring and the remainder of the text after the whole match.
Backtracking over the two optional one-character prefixes can never
rescue a failed attempt (a dollar sign or a whitespace character can
satisfy neither the other option nor a digit), so the greedy
interpretation below is exact. -/
def matchPrice (cs : List Char) : Option (List Char × List Char) :=
  let cs2 := dropOneSpace (dropDollar cs)
  let ds := cs2.takeWhile Char.isDigit
  match cs2.dropWhile Char.isDigit with
  | '.' :: d1 :: d2 :: rest =>
      if ds = [] then none
      else if d1.isDigit && d2.isDigit then some (ds ++ ['.', d1, d2], rest)
      else none
  | _ => none

/-- re.findall of line 84: scan left to right, collect non-overlapping
matches, resume after each match, advance one character after a failed
attempt.  Fuel-driven so that the kernel can evaluate it; the fuel is
the length of the text, which the progress lemmas below show is enough. -/
def findallAux : ℕ → List Char → List (List Char)
  | 0, _ => []
  | _, [] => []
  | f + 1, c :: t =>
      match matchPrice (c :: t) with
      | some (cap, rest) => cap :: findallAux f rest
      | none => findallAux f t

def findall (cs : List Char) : List (List Char) := findallAux cs.length cs

/-- Static configuration of lines 13-17. -/
structure Destination where
  name : String
  dist : ℚ
deriving DecidableEq

def SIGN_ORDER : List Destination :=
  [⟨"Roswell Rd", 6⟩, ⟨"Big Shanty", 12⟩, ⟨"Hickory Grove", 33 / 2⟩]

/-- One row appended to data on lines 109-113.  The script stores the
price and the per-mile rate as formatted display strings; the numeric
values they format are kept here. -/
structure RateEntry where
  destination : String
  price : ℚ
  perMile : ℚ
deriving DecidableEq

def centsQ (n : ℕ) : ℚ := (n : ℚ) / 100

/-- The loop of lines 87-115 over the regex matches, with the running
enumerate index.  A match index at or beyond the length of SIGN_ORDER
contributes nothing (line 88); a failed parse contributes nothing and
moves on (lines 114-115). -/
def buildEntries : ℕ → List (List Char) → List RateEntry
  | _, [] => []
  | i, m :: rest =>
      (if h : i < SIGN_ORDER.length then
          match pyFloatCents m with
          | some v =>
              let val := correctVal v
              let dest := SIGN_ORDER[i]
              [⟨dest.name, centsQ val, centsQ val / dest.dist⟩]
          | none => []
        else []) ++ buildEntries (i + 1) rest

/-- Anchored character-list comparison used to define substring search. -/
def leadsWith : List Char → List Char → Bool
  | [], _ => true
  | _ :: _, [] => false
  | a :: ps, c :: cs => a = c && leadsWith ps cs

/-- Python substring containment (the in operator of line 72). -/
def containsSeq (p : List Char) : List Char → Bool
  | [] => p = []
  | c :: t => leadsWith p (c :: t) || containsSeq p t

def closedMarker : List Char := ['C', 'L', 'O', 'S', 'E', 'D']

/-- Line 72: the closure test on the raw recognized text.  Python
str.upper on ASCII text is the per-character uppercase map. -/
def containsClosed (raw : List Char) : Bool :=
  containsSeq closedMarker (raw.map Char.toUpper)

/-- Result of one run: the closed banner of line 73, or the rate rows. -/
inductive RunResult
  | closed : RunResult
  | rates : List RateEntry → RunResult
deriving DecidableEq

def entriesOf : RunResult → List RateEntry
  | .closed => []
  | .rates es => es

/-- Lines 80-115: the extraction path taken when the sign is open. -/
def extractEntries (raw : List Char) : List RateEntry :=
  buildEntries 0 (findall (cleanText raw))

/-- Lines 72-115: the whole text-to-result pipeline of the script. -/
def pipelineOnText (raw : List Char) : RunResult :=
  if containsClosed raw then .closed else .rates (extractEntries raw)

/-- Correspondence between the i-th regex match and the i-th configured
destination, in the normal form used by the positional-mapping theorem:
the entry the loop body of lines 89-113 builds from a match and its
destination.  getD only ever sees a some, as the parse-success theorem
shows. -/
def mapEntry (m : List Char) (d : Destination) : RateEntry :=
  let val := correctVal ((pyFloatCents m).getD 0)
  ⟨d.name, centsQ val, centsQ val / d.dist⟩

/-- Raw camera frame: an RGB bitmap (the JPEG fetched on lines 22-31). -/
structure RGBImage where
  w : ℕ
  h : ℕ
  r : ℕ → ℕ → ℕ
  g : ℕ → ℕ → ℕ
  b : ℕ → ℕ → ℕ

/-- Single-channel bitmap, the working type of lines 35-48. -/
structure GrayImage where
  w : ℕ
  h : ℕ
  px : ℕ → ℕ → ℕ

/-- Line 35, PIL convert to mode L: integer luminance. -/
def convertL (img : RGBImage) : GrayImage :=
  ⟨img.w, img.h, fun x y => (299 * img.r x y + 587 * img.g x y + 114 * img.b x y) / 1000⟩

/-- Line 39, ImageOps.invert on a mode-L image. -/
def invertL (img : GrayImage) : GrayImage :=
  ⟨img.w, img.h, fun x y => 255 - img.px x y⟩

/-- Line 44, the point binarization: below the cutoff becomes 0, the rest
becomes 255 (mode-1 pixels as PIL stores them). -/
def thresholdBW (cut : ℕ) (img : GrayImage) : GrayImage :=
  ⟨img.w, img.h, fun x y => if img.px x y < cut then 0 else 255⟩

/-- Lines 47-48, the 2x upscale.  The dimensions are faithful; the LANCZOS
resampling kernel is abstracted to coordinate halving, since no claim here
depends on the interpolated pixel values (the resized frame only reaches
the OCR oracle). -/
def resize2x (img : GrayImage) : GrayImage :=
  ⟨2 * img.w, 2 * img.h, fun x y => img.px (x / 2) (y / 2)⟩

/-- Preprocessing stages of process_image, line 35 to line 48. -/
inductive Stage
  | grayscale
  | invert
  | threshold
  | resize
deriving DecidableEq, Repr

/-- Which frame an OCR invocation receives. -/
inductive FrameTag
  | raw
  | processed
deriving DecidableEq, Repr

/-- The tesseract configuration string of line 53, oem 3, psm 6, and no
tessedit char whitelist. -/
structure OCRConfig where
  oem : ℕ
  psm : ℕ
  whitelist : Option (List Char)
deriving DecidableEq, Repr

def custom_config : OCRConfig := ⟨3, 6, none⟩

/-- What one call of process_image produces and does: the recognized
text and the processed frame it returns (line 57), plus the preprocessing
stages and the OCR invocations it performs, in program order. -/
structure ProcResult where
  text : List Char
  frame : GrayImage
  stages : List Stage
  ocrCalls : List (FrameTag × OCRConfig)

/-- Lines 33-57.  The OCR engine is an external collaborator, passed in
as an oracle.  The script makes exactly one image_to_string call, on the
resized frame, with custom_config. -/
def process_image (img : RGBImage) (ocr : GrayImage → OCRConfig → List Char) : ProcResult :=
  let gray := convertL img
  let inverted := invertL gray
  let bw := thresholdBW 90 inverted
  let resized := resize2x bw
  let text := ocr resized custom_config
  ⟨text, resized, [.grayscale, .invert, .threshold, .resize], [(.processed, custom_config)]⟩

/-- Lines 70-115: one full run, OCR included.  The single recognized
text drives both the closure check of line 72 and the extraction of
lines 80-115. -/
def appRun (img : RGBImage) (ocr : GrayImage → OCRConfig → List Char) : RunResult :=
  pipelineOnText (process_image img ocr).text

/-- One pixel image and trivial oracle, used to instantiate the run at a
concrete input. -/
def img0 : RGBImage := ⟨1, 1, fun _ _ => 0, fun _ _ => 0, fun _ _ => 0⟩

def ocr0 : GrayImage → OCRConfig → List Char := fun _ _ => []

/-- Modelled from the spec: rate entries tagged as directly observed or
calculated (section 4.6, hidden-destination interpolation; the feature
does not appear in src/app.py). -/
structure TaggedEntry where
  destination : String
  price : ℚ
  perMile : ℚ
  calculated : Bool
deriving DecidableEq

/-- Modelled from the spec: insertion at a fixed position of the output
sequence (section 4.6, inserted at a fixed relative position, not
appended at the end). -/
def insertAt {α : Type} : ℕ → α → List α → List α
  | 0, a, l => a :: l
  | _ + 1, a, [] => [a]
  | n + 1, a, x :: t => x :: insertAt n a t

/-- Modelled from the spec: hidden-destination interpolation (section 4.6
and section 8; absent from src/app.py).  The reference destination is
looked up among the produced entries; the hidden destination gets price
rate times distance, the per-mile law price over distance, the
calculated tag, and is inserted at the configured position.  Without a
reference entry no estimate can be made and the entries pass through. -/
def interpolateHidden (es : List TaggedEntry) (refName : String) (hidden : Destination)
    (pos : ℕ) : List TaggedEntry :=
  match es.find? (fun e => e.destination == refName) with
  | none => es
  | some ref =>
      insertAt pos ⟨hidden.name, ref.perMile * hidden.dist,
        ref.perMile * hidden.dist / hidden.dist, true⟩ es

/-! Helper lemmas about the embedded operations. -/

lemma dropDollar_length_le (cs : List Char) : (dropDollar cs).length ≤ cs.length := by
  unfold dropDollar
  split <;> simp

lemma dropOneSpace_length_le (cs : List Char) : (dropOneSpace cs).length ≤ cs.length := by
  unfold dropOneSpace
  split
  · simp
  · split <;> simp

lemma span_digits (ds : List Char) (x : Char) (r : List Char)
    (hds : ∀ c ∈ ds, Char.isDigit c = true) (hx : Char.isDigit x = false) :
    (ds ++ x :: r).takeWhile Char.isDigit = ds ∧ (ds ++ x :: r).dropWhile Char.isDigit = x :: r := by
  induction ds with
  | nil => simp [List.takeWhile_cons, List.dropWhile_cons, hx]
  | cons c t ih =>
      have hc : Char.isDigit c = true := hds c (by simp)
      have ht := ih fun a ha => hds a (by simp [ha])
      simp [List.takeWhile_cons, List.dropWhile_cons, hc, ht.1, ht.2]

lemma matchPrice_eq_some {cs cap rest : List Char} (h : matchPrice cs = some (cap, rest)) :
    (∃ ds d1 d2, cap = ds ++ ['.', d1, d2] ∧ ds ≠ [] ∧ (∀ c ∈ ds, Char.isDigit c = true) ∧
      Char.isDigit d1 = true ∧ Char.isDigit d2 = true) ∧ rest.length + 3 ≤ cs.length := by
  simp only [matchPrice] at h
  set cs2 := dropOneSpace (dropDollar cs) with hcs2
  have hlen : cs2.length ≤ cs.length :=
    le_trans (dropOneSpace_length_le (dropDollar cs)) (dropDollar_length_le cs)
  set ds := cs2.takeWhile Char.isDigit with hds
  split at h
  case h_2 => exact absurd h (by simp)
  case h_1 d1 d2 rest' heq =>
    split at h
    case isTrue => exact absurd h (by simp)
    case isFalse hne =>
      split at h
      case isFalse => exact absurd h (by simp)
      case isTrue hdig =>
        simp only [Option.some.injEq, Prod.mk.injEq] at h
        obtain ⟨hcap, hrest⟩ := h
        subst hrest
        have hsplit : cs2 = ds ++ '.' :: d1 :: d2 :: rest' := by
          conv_lhs => rw [← List.takeWhile_append_dropWhile Char.isDigit cs2]
          rw [← hds, heq]
        have hdsmem : ∀ c ∈ ds, Char.isDigit c = true := by
          intro c hc
          rw [hds] at hc
          exact List.mem_takeWhile_imp hc
        have hd12 : Char.isDigit d1 = true ∧ Char.isDigit d2 = true := by
          simpa using hdig
        refine ⟨⟨ds, d1, d2, hcap.symm, hne, hdsmem, hd12.1, hd12.2⟩, ?_⟩
        have hclen : cs2.length = ds.length + (rest'.length + 3) := by
          rw [hsplit]
          simp only [List.length_append, List.length_cons]
        have hds1 : 1 ≤ ds.length := by
          cases hdsl : ds with
          | nil => exact absurd hdsl hne
          | cons a t => simp
        omega

lemma pyFloatCents_isSome_of_shape (ds : List Char) (d1 d2 : Char)
    (hne : ds ≠ []) (hds : ∀ c ∈ ds, Char.isDigit c = true)
    (hd1 : Char.isDigit d1 = true) (hd2 : Char.isDigit d2 = true) :
    (pyFloatCents (ds ++ ['.', d1, d2])).isSome = true := by
  have hdot : Char.isDigit '.' = false := by decide
  obtain ⟨ht, hd⟩ := span_digits ds '.' [d1, d2] hds hdot
  simp only [pyFloatCents, ht, hd]
  simp [hd1, hd2, hne]

lemma matchPrice_parse {cs cap rest : List Char} (h : matchPrice cs = some (cap, rest)) :
    (pyFloatCents cap).isSome = true := by
  obtain ⟨⟨ds, d1, d2, hcap, hne, hds, hd1, hd2⟩, _⟩ := matchPrice_eq_some h
  rw [hcap]
  exact pyFloatCents_isSome_of_shape ds d1 d2 hne hds hd1 hd2

lemma findallAux_congr : ∀ (f g : ℕ) (cs : List Char), cs.length ≤ f → cs.length ≤ g →
    findallAux f cs = findallAux g cs := by
  intro f
  induction f with
  | zero =>
      intro g cs hf _
      have : cs = [] := List.length_eq_zero.mp (Nat.le_zero.mp hf)
      subst this
      cases g <;> rfl
  | succ f ih =>
      intro g cs hf hg
      cases cs with
      | nil => cases g <;> rfl
      | cons c t =>
          cases g with
          | zero => simp at hg
          | succ g' =>
              simp only [findallAux]
              cases h : matchPrice (c :: t) with
              | none =>
                  exact ih g' t (by simpa using Nat.le_of_succ_le_succ hf)
                    (by simpa using Nat.le_of_succ_le_succ hg)
              | some pr =>
                  obtain ⟨cap, rest⟩ := pr
                  have hlt := (matchPrice_eq_some h).2
                  simp only [List.length_cons] at hf hg hlt
                  show cap :: findallAux f rest = cap :: findallAux g' rest
                  rw [ih g' rest (by omega) (by omega)]

lemma findall_cons (c : Char) (t : List Char) :
    findall (c :: t) =
      match matchPrice (c :: t) with
      | some (cap, rest) => cap :: findall rest
      | none => findall t := by
  show findallAux (c :: t).length (c :: t) = _
  simp only [List.length_cons, findallAux]
  cases h : matchPrice (c :: t) with
  | none => rfl
  | some pr =>
      obtain ⟨cap, rest⟩ := pr
      have hlt := (matchPrice_eq_some h).2
      simp only [List.length_cons] at hlt
      show cap :: findallAux t.length rest = cap :: findall rest
      rw [findallAux_congr t.length rest.length rest (by omega) le_rfl]
      rfl

lemma mem_findall_parse : ∀ (n : ℕ) (cs : List Char), cs.length ≤ n →
    ∀ m ∈ findall cs, (pyFloatCents m).isSome = true := by
  intro n
  induction n with
  | zero =>
      intro cs h m hm
      have : cs = [] := List.length_eq_zero.mp (Nat.le_zero.mp h)
      subst this
      simp [findall, findallAux] at hm
  | succ n ih =>
      intro cs h m hm
      cases cs with
      | nil => simp [findall, findallAux] at hm
      | cons c t =>
          rw [findall_cons] at hm
          cases hmp : matchPrice (c :: t) with
          | none =>
              rw [hmp] at hm
              exact ih t (by simpa using Nat.le_of_succ_le_succ h) m hm
          | some pr =>
              obtain ⟨cap, rest⟩ := pr
              rw [hmp] at hm
              rcases List.mem_cons.mp hm with hcap | hrest
              · subst hcap
                exact matchPrice_parse hmp
              · have hlt := (matchPrice_eq_some hmp).2
                simp only [List.length_cons] at h hlt
                exact ih rest (by omega) m hrest

lemma findall_parse {cs m : List Char} (h : m ∈ findall cs) :
    (pyFloatCents m).isSome = true :=
  mem_findall_parse cs.length cs le_rfl m h

lemma buildEntries_of_ge : ∀ (ms : List (List Char)) (i : ℕ), SIGN_ORDER.length ≤ i →
    buildEntries i ms = [] := by
  intro ms
  induction ms with
  | nil => intro i _; rfl
  | cons m t ih =>
      intro i hi
      simp only [buildEntries]
      rw [dif_neg (by omega), ih (i + 1) (by omega)]
      rfl

lemma buildEntries_zip : ∀ (ms : List (List Char)),
    (∀ m ∈ ms, (pyFloatCents m).isSome = true) → ∀ i,
    buildEntries i ms = (ms.zip (SIGN_ORDER.drop i)).map fun p => mapEntry p.1 p.2 := by
  intro ms
  induction ms with
  | nil => intro _ i; simp [buildEntries]
  | cons m t ih =>
      intro hall i
      have hm := hall m (List.mem_cons_self m t)
      have ht : ∀ x ∈ t, (pyFloatCents x).isSome = true := fun x hx =>
        hall x (List.mem_cons_of_mem m hx)
      obtain ⟨v, hv⟩ := Option.isSome_iff_exists.mp hm
      by_cases hi : i < SIGN_ORDER.length
      · have h3 : SIGN_ORDER.length = 3 := rfl
        rw [h3] at hi
        have hrec := ih ht (i + 1)
        interval_cases i <;>
          simp [buildEntries, hv, hrec, mapEntry, SIGN_ORDER, List.zip_cons_cons]
      · rw [buildEntries_of_ge (m :: t) i (by omega)]
        rw [List.drop_eq_nil_of_le (by omega), List.zip_nil_right]
        rfl

lemma leadsWith_iff : ∀ (p s : List Char), leadsWith p s = true ↔ ∃ r, s = p ++ r := by
  intro p
  induction p with
  | nil => intro s; simp [leadsWith]
  | cons a ps ih =>
      intro s
      cases s with
      | nil => simp [leadsWith]
      | cons c cs =>
          simp only [leadsWith, Bool.and_eq_true, decide_eq_true_eq, ih, List.cons_append,
            List.cons.injEq]
          constructor
          · rintro ⟨rfl, r, rfl⟩
            exact ⟨r, rfl, rfl⟩
          · rintro ⟨r, rfl, rfl⟩
            exact ⟨rfl, r, rfl⟩

lemma containsSeq_iff (p : List Char) : ∀ s, containsSeq p s = true ↔ ∃ x y, s = x ++ p ++ y := by
  intro s
  induction s with
  | nil =>
      simp only [containsSeq, decide_eq_true_eq]
      constructor
      · rintro rfl
        exact ⟨[], [], rfl⟩
      · rintro ⟨x, y, hxy⟩
        rcases List.append_eq_nil.mp hxy.symm with ⟨h1, h2⟩
        exact (List.append_eq_nil.mp h1).2
  | cons c t ih =>
      simp only [containsSeq, Bool.or_eq_true, leadsWith_iff, ih]
      constructor
      · rintro (⟨r, hr⟩ | ⟨x, y, hxy⟩)
        · exact ⟨[], r, by simpa using hr⟩
        · exact ⟨c :: x, y, by simp [hxy]⟩
      · rintro ⟨x, y, hxy⟩
        cases x with
        | nil =>
            left
            exact ⟨y, by simpa using hxy⟩
        | cons c' x' =>
            right
            simp only [List.cons_append, List.cons.injEq] at hxy
            exact ⟨x', y, hxy.2⟩

lemma map_toUpper_split {l x y : List Char} (h : l.map Char.toUpper = x ++ y) :
    ∃ a b, l = a ++ b ∧ a.map Char.toUpper = x ∧ b.map Char.toUpper = y := by
  induction x generalizing l with
  | nil => exact ⟨[], l, rfl, rfl, by simpa using h⟩
  | cons c xs ih =>
      cases l with
      | nil => simp at h
      | cons d l' =>
          simp only [List.map_cons, List.cons_append, List.cons.injEq] at h
          obtain ⟨a, b, rfl, ha, hb⟩ := ih h.2
          exact ⟨d :: a, b, rfl, by simp [h.1, ha], hb⟩

lemma insertAt_length {α : Type} (a : α) : ∀ (n : ℕ) (l : List α),
    (insertAt n a l).length = l.length + 1 := by
  intro n
  induction n with
  | zero => intro l; rfl
  | succ n ih =>
      intro l
      cases l with
      | nil => rfl
      | cons x t => simpa [insertAt] using ih t

lemma insertAt_getElem {α : Type} (a : α) : ∀ (n : ℕ) (l : List α), n ≤ l.length →
    (insertAt n a l)[n]? = some a := by
  intro n
  induction n with
  | zero => intro l _; simp [insertAt]
  | succ n ih =>
      intro l hl
      cases l with
      | nil => simp at hl
      | cons x t =>
          simp only [insertAt, List.getElem?_cons_succ]
          exact ih t (by simpa using hl)

lemma all_dist_pos : ∀ d ∈ SIGN_ORDER, 0 < d.dist := by norm_num [SIGN_ORDER]

lemma centsQ_nonneg (n : ℕ) : 0 ≤ centsQ n := by
  unfold centsQ
  positivity

lemma extractEntries_zip (text : List Char) :
    extractEntries text =
      ((findall (cleanText text)).zip SIGN_ORDER).map fun p => mapEntry p.1 p.2 := by
  have hz := buildEntries_zip (findall (cleanText text)) (fun _ hm => findall_parse hm) 0
  rw [List.drop_zero] at hz
  exact hz

/-! Claim theorems. -/

/-- Claim C1: the pipeline signals closure exactly when the recognized
text contains the substring CLOSED in any letter case, possibly mixed
with other content, and a closed run yields zero rate entries. -/
theorem closure_exactly_on_marker (text : List Char) :
    (pipelineOnText text = .closed ↔
      ∃ a w b, text = a ++ w ++ b ∧ w.map Char.toUpper = closedMarker) ∧
    (pipelineOnText text = .closed → entriesOf (pipelineOnText text) = []) := by
  have hcc : pipelineOnText text = .closed ↔ containsClosed text = true := by
    unfold pipelineOnText
    by_cases h : containsClosed text = true <;> simp [h]
  constructor
  · rw [hcc, containsClosed, containsSeq_iff]
    constructor
    · rintro ⟨x, y, hxy⟩
      obtain ⟨a, wb, rfl, ha, hwb⟩ :=
        map_toUpper_split (l := text) (x := x) (y := closedMarker ++ y)
          (by rw [hxy, List.append_assoc])
      obtain ⟨w, b, rfl, hw, hb⟩ := map_toUpper_split hwb
      exact ⟨a, w, b, (List.append_assoc a w b).symm, hw⟩
    · rintro ⟨a, w, b, rfl, hw⟩
      exact ⟨a.map Char.toUpper, b.map Char.toUpper, by simp [hw]⟩
  · intro h
    rw [h]
    rfl

/-- Witness for the closure claim at a concrete mixed-case text. -/
theorem closure_exactly_on_marker_witness :
    entriesOf (pipelineOnText ['t', 'o', 'l', 'l', ' ', 'c', 'L', 'o', 'S', 'e', 'D']) = [] :=
  (closure_exactly_on_marker ['t', 'o', 'l', 'l', ' ', 'c', 'L', 'o', 'S', 'e', 'D']).2 (by decide)

/-- Claim C2: the i-th successfully parsed reading maps to the i-th
configured destination (zip truncates to the matched prefix, so extra
readings are ignored and with fewer readings only the prefix produces
entries), and no run ever yields more entries than configured
destinations. -/
theorem positional_mapping (text : List Char) :
    extractEntries text =
      ((findall (cleanText text)).zip SIGN_ORDER).map (fun p => mapEntry p.1 p.2) ∧
    (entriesOf (pipelineOnText text)).length ≤ SIGN_ORDER.length := by
  refine ⟨extractEntries_zip text, ?_⟩
  unfold pipelineOnText
  by_cases h : containsClosed text = true
  · rw [if_pos h]
    simp [entriesOf]
  · rw [if_neg h]
    show (extractEntries text).length ≤ _
    rw [extractEntries_zip text, List.length_map, List.length_zip]
    exact inf_le_right

/-- Claim C3 counterexample: 999.99 is implausible, its correction 99.99
is still implausible, yet the reading is kept in the output with price
99.99, not discarded. -/
theorem implausible_value_kept_cx :
    correctVal 99999 = 9999 ∧ 1500 < 9999 ∧
    extractEntries ['9', '9', '9', '.', '9', '9'] =
      [⟨"Roswell Rd", centsQ 9999, centsQ 9999 / 6⟩] :=
  ⟨rfl, by norm_num, rfl⟩

/-- Claim C3 (amended): values at most 15.00 dollars are untouched;
larger values get the first character of their decimal representation
dropped and re-parsed, and the result is kept even when it is still
implausible, so 50.50 becomes 0.50 but 999.99 becomes 99.99 and stays in
the output. -/
theorem corrector_drop_digit :
    (∀ c : ℕ, c ≤ 1500 → correctVal c = c) ∧
    correctVal 5050 = 50 ∧ correctVal 99999 = 9999 ∧ correctVal 2000 = 0 ∧
    extractEntries ['5', '0', '.', '5', '0'] = [⟨"Roswell Rd", centsQ 50, centsQ 50 / 6⟩] := by
  refine ⟨?_, rfl, rfl, rfl, rfl⟩
  intro c hc
  unfold correctVal
  rw [if_neg (by omega)]

/-- Witness for the corrector claim at a plausible value. -/
theorem corrector_drop_digit_witness : correctVal 700 = 700 :=
  corrector_drop_digit.1 700 (by norm_num)

/-- Claim C4 (code bug): a price with a leading decimal point and no
integer part is skipped by the regex of line 83, although the comment of
line 76 documents the .50 form as supported; the example text yields only
the readings 0.50 and 1.10, with no normalized 0.75. -/
theorem leading_dot_price_skipped :
    findall (cleanText
        ['$', '0', '.', '5', '0', ' ', '$', '1', '.', '1', '0', ' ', '.', '7', '5']) =
      [['0', '.', '5', '0'], ['1', '.', '1', '0']] ∧
    extractEntries ['$', '0', '.', '5', '0', ' ', '$', '1', '.', '1', '0', ' ', '.', '7', '5'] =
      [⟨"Roswell Rd", centsQ 50, centsQ 50 / 6⟩, ⟨"Big Shanty", centsQ 110, centsQ 110 / 12⟩] :=
  ⟨by decide, rfl⟩

/-- Claim C5: every produced rate entry has a non-negative price, its
per-mile rate is the price divided by the distance of a configured
destination whose distance is strictly positive, and the per-mile rate is
non-negative. -/
theorem per_mile_safe (text : List Char) (e : RateEntry)
    (he : e ∈ entriesOf (pipelineOnText text)) :
    0 ≤ e.price ∧ 0 ≤ e.perMile ∧
    ∃ d, d ∈ SIGN_ORDER ∧ 0 < d.dist ∧ e.perMile = e.price / d.dist := by
  have hsub : e ∈ extractEntries text := by
    unfold pipelineOnText at he
    by_cases h : containsClosed text = true
    · rw [if_pos h] at he
      simp [entriesOf] at he
    · rw [if_neg h] at he
      exact he
  rw [extractEntries_zip text] at hsub
  obtain ⟨⟨m, d⟩, hmem, rfl⟩ := List.mem_map.mp hsub
  have hd : d ∈ SIGN_ORDER := (List.of_mem_zip hmem).2
  have hdp := all_dist_pos d hd
  exact ⟨centsQ_nonneg _, div_nonneg (centsQ_nonneg _) hdp.le, d, hd, hdp, rfl⟩

/-- Witness for the per-mile safety claim at a concrete run. -/
theorem per_mile_safe_witness :
    0 ≤ (⟨"Roswell Rd", centsQ 50, centsQ 50 / 6⟩ : RateEntry).price ∧
    0 ≤ (⟨"Roswell Rd", centsQ 50, centsQ 50 / 6⟩ : RateEntry).perMile ∧
    ∃ d, d ∈ SIGN_ORDER ∧ 0 < d.dist ∧
      (⟨"Roswell Rd", centsQ 50, centsQ 50 / 6⟩ : RateEntry).perMile =
        (⟨"Roswell Rd", centsQ 50, centsQ 50 / 6⟩ : RateEntry).price / d.dist :=
  per_mile_safe ['0', '.', '5', '0'] ⟨"Roswell Rd", centsQ 50, centsQ 50 / 6⟩
    (List.Mem.head [])

/-- Claim C6 counterexample: the script performs exactly one OCR
invocation, on the processed frame, with no character whitelist; there is
no second pass, no raw-frame pass and no whitelisted pass. -/
theorem single_ocr_pass_cx :
    (process_image img0 ocr0).ocrCalls = [(FrameTag.processed, custom_config)] ∧
    (process_image img0 ocr0).ocrCalls.length ≠ 2 ∧
    ∀ call ∈ (process_image img0 ocr0).ocrCalls,
      call.2.whitelist = none ∧ call.1 ≠ FrameTag.raw :=
  ⟨rfl, by decide, by decide⟩

/-- Claim C6 (amended): text recognition is one unrestricted OCR
invocation on the processed frame, and its single output string drives
both the closure check and the price extraction. -/
theorem single_ocr_pass (img : RGBImage) (ocr : GrayImage → OCRConfig → List Char) :
    (process_image img ocr).ocrCalls = [(FrameTag.processed, custom_config)] ∧
    custom_config.whitelist = none ∧
    appRun img ocr = pipelineOnText (process_image img ocr).text :=
  ⟨rfl, rfl, rfl⟩

/-- Claim C7 counterexample: in the preprocessing trace the invert stage
comes before the threshold stage, so threshold does not run before
invert. -/
theorem invert_precedes_threshold_cx :
    (process_image img0 ocr0).stages =
      [Stage.grayscale, Stage.invert, Stage.threshold, Stage.resize] ∧
    ¬((process_image img0 ocr0).stages.indexOf Stage.threshold <
        (process_image img0 ocr0).stages.indexOf Stage.invert) :=
  ⟨rfl, by decide⟩

/-- Claim C7 (amended): the stages run as grayscale, invert, threshold,
resize, with inversion applied before binarization, and the processed
frame is the resize of the threshold of the inversion of the grayscale
frame. -/
theorem invert_precedes_threshold (img : RGBImage) (ocr : GrayImage → OCRConfig → List Char) :
    (process_image img ocr).stages =
      [Stage.grayscale, Stage.invert, Stage.threshold, Stage.resize] ∧
    (process_image img ocr).stages.indexOf Stage.invert <
      (process_image img ocr).stages.indexOf Stage.threshold ∧
    (process_image img ocr).frame = resize2x (thresholdBW 90 (invertL (convertL img))) := by
  refine ⟨rfl, ?_, rfl⟩
  show List.indexOf Stage.invert
        [Stage.grayscale, Stage.invert, Stage.threshold, Stage.resize] <
      List.indexOf Stage.threshold
        [Stage.grayscale, Stage.invert, Stage.threshold, Stage.resize]
  decide

/-- Claim C8: with a reference entry present, the interpolated hidden
destination carries price rate times distance, per-mile law price over
distance, the calculated tag, and sits at the configured position of the
output sequence, whose length grows by one. -/
theorem hidden_interpolation (es : List TaggedEntry) (refName : String)
    (hidden : Destination) (pos : ℕ) (ref : TaggedEntry)
    (href : es.find? (fun e => e.destination == refName) = some ref)
    (hpos : pos ≤ es.length) :
    (interpolateHidden es refName hidden pos)[pos]? =
      some ⟨hidden.name, ref.perMile * hidden.dist,
        ref.perMile * hidden.dist / hidden.dist, true⟩ ∧
    (interpolateHidden es refName hidden pos).length = es.length + 1 := by
  unfold interpolateHidden
  rw [href]
  exact ⟨insertAt_getElem _ pos es hpos, insertAt_length _ pos es⟩

/-- Witness for the interpolation claim: rate 0.10 per mile at 9.0 miles
gives price 0.90, inserted mid-sequence at position 1 and tagged. -/
theorem hidden_interpolation_witness :
    (interpolateHidden
        [⟨"Roswell Rd", centsQ 60, 1 / 10, false⟩, ⟨"Hickory Grove", centsQ 160, 1 / 10, false⟩]
        "Roswell Rd" ⟨"Delk Rd", 9⟩ 1)[1]? =
      some ⟨"Delk Rd", 1 / 10 * 9, 1 / 10 * 9 / 9, true⟩ ∧
    (interpolateHidden
        [⟨"Roswell Rd", centsQ 60, 1 / 10, false⟩, ⟨"Hickory Grove", centsQ 160, 1 / 10, false⟩]
        "Roswell Rd" ⟨"Delk Rd", 9⟩ 1).length = 3 :=
  hidden_interpolation
    [⟨"Roswell Rd", centsQ 60, 1 / 10, false⟩, ⟨"Hickory Grove", centsQ 160, 1 / 10, false⟩]
    "Roswell Rd" ⟨"Delk Rd", 9⟩ 1 ⟨"Roswell Rd", centsQ 60, 1 / 10, false⟩ rfl (by decide)

/-- Claim C9: every substring the price pattern captures parses
successfully, so the parse-failure recovery branch never skips a match
and the entry count equals the match count capped by the number of
configured destinations. -/
theorem captured_price_always_parses :
    (∀ cs m : List Char, m ∈ findall cs → (pyFloatCents m).isSome = true) ∧
    ∀ text : List Char,
      (extractEntries text).length = min (findall (cleanText text)).length SIGN_ORDER.length := by
  refine ⟨fun _ _ hm => findall_parse hm, fun text => ?_⟩
  rw [extractEntries_zip text, List.length_map, List.length_zip]

/-- Witness for the parse claim at a concrete captured match. -/
theorem captured_price_always_parses_witness :
    (pyFloatCents ['0', '.', '5', '0']).isSome = true :=
  captured_price_always_parses.1 ['0', '.', '5', '0'] ['0', '.', '5', '0'] (by decide)

/-- Claim C10: the text SO.OO contains no decimal digit, yet the glyph
cleanup rewrites it to a form the price pattern matches over the whole
text, producing the reading 0.00. -/
theorem glyph_fix_creates_reading :
    (['S', 'O', '.', 'O', 'O'].all fun c => !c.isDigit) = true ∧
    cleanText ['S', 'O', '.', 'O', 'O'] = ['$', '0', '.', '0', '0'] ∧
    findall (cleanText ['S', 'O', '.', 'O', 'O']) = [['0', '.', '0', '0']] ∧
    extractEntries ['S', 'O', '.', 'O', 'O'] = [⟨"Roswell Rd", centsQ 0, centsQ 0 / 6⟩] :=
  ⟨by decide, by decide, by decide, rfl⟩

end NWCToll
